import Mathlib

/-!
# Verification of the registry reconciliation engine

Shallow embedding of the two CLI tools of this repository:

* `tools/registry-lint.mjs` — validates and normalizes a registry of agent
  records (category aliasing, kebab-case basenames, category-folder
  prefixes, duplicate-name removal), plans file moves, and optionally
  (`--fix --apply-moves`) writes the document back and applies the moves.
* `tools/rescue-move-by-basename.mjs` — walks the tree, indexes `.md` files
  by lower-cased basename, and relocates files whose registry target path
  is missing when exactly one basename candidate exists.

Strings are modelled as Lean `String` (a list of characters); JavaScript
string primitives (`trim`, `replace` of the first occurrence,
`toLowerCase`, `startsWith`, `endsWith`) and Node's `path.basename` /
`path.dirname` (POSIX) are given explicit executable models below.
JavaScript `\s` (whitespace class) is modelled by the common whitespace
code points; `toLowerCase` is modelled on the ASCII range, which is exact
for every character the allow-list of `toKebab` can let through.
The file system is modelled as an association list from path to file
content plus a set (list) of created directory names; `fs.renameSync`
replaces any file already at the destination and fails (throws) when the
source is absent.
-/

/-- Characters matched by the JavaScript whitespace class used by
`String.prototype.trim` and the `\s` regex class (modelled by code point). -/
def isJsSpace (c : Char) : Bool :=
  let n := c.toNat
  n = 32 || n = 9 || n = 10 || n = 11 || n = 12 || n = 13 ||
  n = 160 || n = 0x2028 || n = 0x2029 || n = 0xFEFF

/-- The allow-list of `toKebab`'s strip step: the regex class
`[a-zA-Z0-9._/ -]` (everything outside it is deleted). -/
def isAllowed (c : Char) : Bool :=
  let n := c.toNat
  (97 ≤ n && n ≤ 122) || (65 ≤ n && n ≤ 90) || (48 ≤ n && n ≤ 57) ||
  n = 46 || n = 95 || n = 47 || n = 32 || n = 45

/-- ASCII lower-casing, the model of `String.prototype.toLowerCase` on the
characters reachable here. -/
def lowerChar (c : Char) : Char :=
  if 65 ≤ c.toNat ∧ c.toNat ≤ 90 then Char.ofNat (c.toNat + 32) else c

/-- Is the character a hyphen (the class `[-]` of `toKebab`'s collapse)? -/
def isHyphen (c : Char) : Bool := c = '-'

/-- Model of `String.prototype.trim` on the character list: drop JS whitespace from
both ends. -/
def trimL (l : List Char) : List Char :=
  ((l.dropWhile isJsSpace).reverse.dropWhile isJsSpace).reverse

/-- The `replace(/&/g, "and")` step of `toKebab`. -/
def ampAnd : List Char → List Char
  | [] => []
  | c :: cs => (if c = '&' then ['a', 'n', 'd'] else [c]) ++ ampAnd cs

/-- Replace each maximal run of characters satisfying `p` by the single
character `r`; `inRun` records whether the previous character was in a run.
With `p` the whitespace class and `r := '-'` this is the whitespace-run
collapse of `toKebab`; with `p` the hyphen class it is the hyphen-run
collapse. -/
def collapseRunsAux (p : Char → Bool) (r : Char) : Bool → List Char → List Char
  | _, [] => []
  | inRun, c :: cs =>
    if p c then
      if inRun then collapseRunsAux p r true cs
      else r :: collapseRunsAux p r true cs
    else c :: collapseRunsAux p r false cs

/-- Replace each maximal run of `p`-characters by the single character `r`. -/
def collapseRuns (p : Char → Bool) (r : Char) (l : List Char) : List Char :=
  collapseRunsAux p r false l

/-- Model of `toKebab` from `tools/registry-lint.mjs` on the character list:
trim, `&`→`and`, strip the disallowed characters, collapse whitespace runs
to `-`, collapse hyphen runs, lower-case. -/
def toKebabL (l : List Char) : List Char :=
  (collapseRuns isHyphen '-'
    (collapseRuns isJsSpace '-'
      ((ampAnd (trimL l)).filter isAllowed))).map lowerChar

/-- Model of `toKebab` from `tools/registry-lint.mjs`. -/
def toKebab (s : String) : String := ⟨toKebabL s.data⟩

/-- Model of `String.prototype.trim`. -/
def jsTrim (s : String) : String := ⟨trimL s.data⟩

/-- Drop trailing `/` characters (Node `path` ignores trailing separators). -/
def dropTrailingSlashes (l : List Char) : List Char :=
  (l.reverse.dropWhile (fun c => c = '/')).reverse

/-- Model of `path.basename` (POSIX) on the character list: the segment after the
last `/`, trailing separators ignored. -/
def basenameL (l : List Char) : List Char :=
  ((dropTrailingSlashes l).reverse.takeWhile (fun c => c ≠ '/')).reverse

/-- Model of `path.basename` (POSIX). -/
def basename (s : String) : String := ⟨basenameL s.data⟩

/-- Model of `path.dirname` (POSIX) on the character list. -/
def dirnameL (l : List Char) : List Char :=
  let t := dropTrailingSlashes l
  let b := (t.reverse.takeWhile (fun c => c ≠ '/')).reverse
  let rest := t.take (t.length - b.length)
  let d := dropTrailingSlashes rest
  if d = [] then (if rest = [] then ['.'] else ['/']) else d

/-- Model of `path.dirname` (POSIX). -/
def dirname (s : String) : String := ⟨dirnameL s.data⟩

/-- JavaScript `String.prototype.replace` with a *string* pattern: replace
only the first occurrence; an empty pattern matches at position 0; when the
pattern does not occur the string is returned unchanged. -/
def replaceFirstL (pat rep : List Char) : List Char → List Char
  | [] => if pat = [] then rep else []
  | c :: cs =>
    if pat.isPrefixOf (c :: cs) then rep ++ (c :: cs).drop pat.length
    else c :: replaceFirstL pat rep cs

/-- JavaScript `s.replace(pat, rep)` (first occurrence only). -/
def replaceFirst (s pat rep : String) : String :=
  ⟨replaceFirstL pat.data rep.data s.data⟩

/-- JavaScript `String.prototype.startsWith`. -/
def strStartsWith (s p : String) : Bool := p.data.isPrefixOf s.data

/-- JavaScript `String.prototype.endsWith`. -/
def strEndsWith (s p : String) : Bool := p.data.isSuffixOf s.data

/-- JavaScript `String.prototype.toLowerCase` (ASCII model). -/
def strLower (s : String) : String := ⟨s.data.map lowerChar⟩

/-- JavaScript `String.prototype.length` (the number of units of the
string; surrogate pairs are not modelled, which is exact for the inputs
the tools compare against fixed thresholds). -/
def jsLength (s : String) : Nat := s.data.length

/-! ## Association-list file systems and helper maps -/

/-- First-match lookup in an association list (`Map.get` / object access). -/
def assocLookup {β : Type} : List (String × β) → String → Option β
  | [], _ => none
  | (k, v) :: rest, key => if k = key then some v else assocLookup rest key

/-- Remove every binding of a key. -/
def eraseKey {β : Type} : List (String × β) → String → List (String × β)
  | [], _ => []
  | (k, v) :: rest, key =>
    if k = key then eraseKey rest key else (k, v) :: eraseKey rest key

/-- Bind a key, replacing any previous binding (write/overwrite). -/
def setKey {β : Type} (l : List (String × β)) (key : String) (v : β) :
    List (String × β) :=
  eraseKey l key ++ [(key, v)]

/-- The file system: files as a path-to-content map, plus the set of
directory names created so far (`fs.mkdirSync`). -/
structure FsState where
  files : List (String × String)
  dirs : List String
deriving DecidableEq

/-- Model of `fs.existsSync`: true for an existing file or directory. -/
def pexists (st : FsState) (p : String) : Bool :=
  (assocLookup st.files p).isSome || st.dirs.contains p

/-- Model of `fs.renameSync from to` on the file map: `none` when the source file is
absent (the call throws); otherwise the file is rebound to `to`,
replacing any file already there. -/
def renameFile (st : FsState) (src dst : String) : Option FsState :=
  match assocLookup st.files src with
  | some c => some { st with files := setKey (eraseKey st.files src) dst c }
  | none => none

/-- The chain `d, dirname d, dirname (dirname d), …` (fuel-bounded), the
set of directories `fs.mkdirSync(d, { recursive: true })` ensures exist. -/
def ancestorChains : Nat → String → List String
  | 0, d => [d]
  | n + 1, d => d :: (if dirname d = d then [] else ancestorChains n (dirname d))

/-- Model of the recursive `fs.mkdirSync(d)` on the directory set. -/
def mkdirRec (dirs : List String) (d : String) : List String :=
  ancestorChains (jsLength d) d ++ dirs

/-! ## The registry document and the lint pipeline
(`tools/registry-lint.mjs`) -/

/-- One raw agent record of the registry; absent string fields are `""`
(they are only ever tested for truthiness or passed through
`String(x || "")`). -/
structure RawAgent where
  name : String
  category : String
  source_file : String
  description : String
deriving DecidableEq

/-- The `agents` field of the parsed document: absent, present but not an
array, or an array of records (`Array.isArray` guard). -/
inductive AgentsField
  | absent
  | notArray
  | arr (l : List RawAgent)
deriving DecidableEq

/-- The parsed registry document: the `categories` map (key to folder
name; absent modelled as `[]`, matching `data?.categories ?? {}`) and the
`agents` field. -/
structure RegDoc where
  categories : List (String × String)
  agents : AgentsField
deriving DecidableEq

/-- The guard `Array.isArray(data?.agents) ? data.agents : []`. -/
def agentsOf (d : RegDoc) : List RawAgent :=
  match d.agents with
  | .arr l => l
  | _ => []

/-- The static `aliasMap` of legacy category spellings. -/
def aliasMap : String → Option String
  | "engineering" => some "01-core-development"
  | "analysis" => some "10-research-analysis"
  | "quality" => some "04-quality-security"
  | "communication" => some "08-business-product"
  | "business" => some "08-business-product"
  | "specialized" => some "07-specialized-domains"
  | _ => none

/-- The constant `rootCategoryKey`: the special root group. -/
def rootCategoryKey : String := "superclaude-root"

/-- The constant `ROOT_DIR_DEFAULT`: the fixed root directory. -/
def ROOT_DIR_DEFAULT : String := "superclaude-root"

/-- The helper `getCatDir`: the declared folder of a category key, falling back to the
key itself when the map has no (truthy) entry. -/
def getCatDir (cats : List (String × String)) (catKey : String) : String :=
  match assocLookup cats catKey with
  | some v => if v = "" then catKey else v
  | none => catKey

/-- The helper `ensurePrefixedByCategory`: keep the path if it already starts with the
category folder, else re-root its basename under that folder. -/
def ensurePrefixedByCategory (cats : List (String × String))
    (filePath : String) (categoryKey : String) : String :=
  let catDir := getCatDir cats categoryKey
  let base := basename filePath
  if strStartsWith filePath (catDir ++ "/") then filePath
  else catDir ++ "/" ++ base

/-- A planned move `{from, to, name}`. -/
structure Move where
  fromPath : String
  toPath : String
  name : String
deriving DecidableEq

/-- The diagnostics the lint loop pushes onto `problems`. -/
inductive Problem
  | errorNoName (agent : RawAgent)
  | warnUnknownCategory (rawCategory name : String)
  | warnSynthesized (guessed name : String)
  | warnLongDescription (len : Nat) (name : String)
deriving DecidableEq

/-- A record dropped by the loop, tagged with its reason. -/
structure RemovedEntry where
  reason : String
  agent : RawAgent
deriving DecidableEq

/-- The outcome of normalizing one record (steps 2–4 of the loop body):
the updated record, the moves queued for it, the problems pushed. -/
structure NormResult where
  agent : RawAgent
  moves : List Move
  problems : List Problem
deriving DecidableEq

/-- Step 2 of the `for (const agent of agents)` body: trim the raw
category, substitute an alias, and if the result is neither declared nor
the root key, warn and fall back to the raw category's alias or the fixed
default `01-core-development`; an empty result also defaults. Returns the
resolved key and the warnings pushed. -/
def resolveCategory (cats : List (String × String)) (a : RawAgent) :
    String × List Problem :=
  let cat0 := jsTrim a.category
  let cat1 := match aliasMap cat0 with
    | some c => c
    | none => cat0
  let unknown : Bool :=
    cat1 ≠ "" && !((cats.map Prod.fst).contains cat1) && cat1 ≠ rootCategoryKey
  let cat2 :=
    if unknown then
      match aliasMap a.category with
      | some c => c
      | none => "01-core-development"
    else cat1
  (if cat2 = "" then "01-core-development" else cat2,
   if unknown then [.warnUnknownCategory a.category a.name] else [])

/-- Start of step 3: trim the declared `source_file`; an empty one is
synthesized as `toKebab(name) + ".md"` with a warning. -/
def resolveSource (a : RawAgent) : String × List Problem :=
  let src0 := jsTrim a.source_file
  if src0 = "" then
    (toKebab a.name ++ ".md", [.warnSynthesized (toKebab a.name ++ ".md") a.name])
  else (src0, [])

/-- End of step 3: root-category paths are forced under
`superclaude-root/` (using the normalized basename when re-rooting), all
other paths go through `ensurePrefixedByCategory`. -/
def canonPath (cats : List (String × String)) (cat norm1 normBase : String) :
    String :=
  if cat = rootCategoryKey then
    if strStartsWith norm1 (ROOT_DIR_DEFAULT ++ "/") then norm1
    else ROOT_DIR_DEFAULT ++ "/" ++ normBase
  else ensurePrefixedByCategory cats norm1 cat

/-- Steps 2–4 of the `for (const agent of agents)` body of
`tools/registry-lint.mjs`: category aliasing and defaulting, `source_file`
trimming/synthesis, kebab-normalization of the basename (replacing its
first occurrence in the declared path), category-folder prefixing, move
queueing, description-length warning. -/
def normalizeAgent (cats : List (String × String)) (a : RawAgent) :
    NormResult :=
  let cat := (resolveCategory cats a).1
  let src := (resolveSource a).1
  let normBase := toKebab (basename src)
  let norm1 := replaceFirst src (basename src) normBase
  let norm := canonPath cats cat norm1 normBase
  let mvs : List Move := if norm ≠ src then [⟨src, norm, a.name⟩] else []
  -- step 4: description length check
  let warns3 : List Problem :=
    if a.description ≠ "" ∧ jsLength a.description > 160 then
      [.warnLongDescription (jsLength a.description) a.name]
    else []
  ⟨{ a with category := cat, source_file := norm }, mvs,
    (resolveCategory cats a).2 ++ (resolveSource a).2 ++ warns3⟩

/-- The accumulating state of the lint loop (`problems`, `moves`, `kept`,
`removed`, `seenNames`). -/
structure LintState where
  problems : List Problem
  moves : List Move
  kept : List RawAgent
  removed : List RemovedEntry
  seenNames : List String
deriving DecidableEq

/-- The empty initial lint state. -/
def initLintState : LintState := ⟨[], [], [], [], []⟩

/-- One iteration of the lint loop: records without a name are logged as
errors; a name already seen removes the record as `duplicate-name`;
otherwise the record is normalized and kept. -/
def processAgent (cats : List (String × String)) (st : LintState)
    (a : RawAgent) : LintState :=
  if a.name = "" then
    { st with problems := st.problems ++ [.errorNoName a] }
  else if st.seenNames.contains a.name then
    { st with removed := st.removed ++ [⟨"duplicate-name", a⟩] }
  else
    let r := normalizeAgent cats a
    { st with
      seenNames := st.seenNames ++ [a.name]
      problems := st.problems ++ r.problems
      moves := st.moves ++ r.moves
      kept := st.kept ++ [r.agent] }

/-- The whole lint loop over the `agents` array. -/
def processAgents (cats : List (String × String)) (agents : List RawAgent) :
    LintState :=
  agents.foldl (processAgent cats) initLintState

/-- The summary counts printed by the report. -/
structure Summary where
  total : Nat
  kept : Nat
  removed : Nat
  duplicates_removed : Nat
  problems : Nat
  moves : Nat
deriving DecidableEq

/-- The report summary of a run over a parsed document. -/
def lintSummary (doc : RegDoc) : Summary :=
  let ags := agentsOf doc
  let st := processAgents doc.categories ags
  ⟨ags.length, st.kept.length, st.removed.length,
    (st.removed.filter (fun r => r.reason = "duplicate-name")).length,
    st.problems.length, st.moves.length⟩

/-! ## The move executor (`--fix --apply-moves` loop) -/

/-- What happened to one move in the `APPLY_MOVES` loop. -/
inductive MoveOutcome
  | moved (fromPath toPath : String)
  | movedFromRoot (base toPath : String)
  | failed (fromPath toPath : String)
  | notFound (fromPath : String)
deriving DecidableEq

/-- One iteration of the `APPLY_MOVES` loop: create the destination
directory unconditionally, then rename from the source if it exists, else
from the bare basename at the process root if that exists, else warn
`(skip) could not find file to move`. A rename that throws is caught and
warned (`failed`). -/
def execMove (st : FsState) (m : Move) : FsState × MoveOutcome :=
  let st1 : FsState := { st with dirs := mkdirRec st.dirs (dirname m.toPath) }
  if pexists st1 m.fromPath then
    match renameFile st1 m.fromPath m.toPath with
    | some st2 => (st2, .moved m.fromPath m.toPath)
    | none => (st1, .failed m.fromPath m.toPath)
  else
    let b := basename m.fromPath
    if pexists st1 b then
      match renameFile st1 b m.toPath with
      | some st2 => (st2, .movedFromRoot b m.toPath)
      | none => (st1, .failed m.fromPath m.toPath)
    else (st1, .notFound m.fromPath)

/-- The whole `APPLY_MOVES` loop, collecting outcomes. -/
def execMoves (st : FsState) (moves : List Move) :
    FsState × List MoveOutcome :=
  moves.foldl
    (fun acc m =>
      let r := execMove acc.1 m
      (r.1, acc.2 ++ [r.2]))
    (st, [])

/-! ## The whole lint run (`--fix` gate) -/

/-- The externally visible writes of one lint run: the `.bak` backup (path
and content), the registry write-back (path and resulting document), and
the final file tree. -/
structure RunEffects where
  backup : Option (String × String)
  registryWrite : Option (String × RegDoc)
  fs : FsState
deriving DecidableEq

/-- The whole run of `tools/registry-lint.mjs` after parsing: process the
records, and only under `--fix` write the backup and the normalized
document back; only under `--fix --apply-moves` (with a non-empty move
list) touch the tree. -/
def runLint (fix applyMoves : Bool) (regPath rawContent : String)
    (doc : RegDoc) (fs0 : FsState) : LintState × RunEffects :=
  let st := processAgents doc.categories (agentsOf doc)
  if fix then
    let fs1 :=
      if applyMoves && !st.moves.isEmpty then (execMoves fs0 st.moves).1
      else fs0
    (st, ⟨some (regPath ++ ".bak", rawContent),
          some (regPath, { doc with agents := .arr st.kept }), fs1⟩)
  else (st, ⟨none, none, fs0⟩)

/-! ## The rescue tool (`tools/rescue-move-by-basename.mjs`) -/

/-- The default `process.argv[2] || "improved-index.yml"` (an empty argument is falsy
and also defaults). -/
def rescueRegistryPath : Option String → String
  | some s => if s = "" then "improved-index.yml" else s
  | none => "improved-index.yml"

/-- The events the rescue loop prints, in order. -/
inductive REvent
  | mv (fromPath toPath : String)
  | warnFailed (fromPath toPath : String)
  | ambiguousEv (base : String) (candidates : List String)
  | missingEv (toPath : String)
deriving DecidableEq

/-- The running state of the rescue loop: the live tree and the three
counters `moved`, `skipped`, `missing`, plus the event log. -/
structure RescueState where
  fs : FsState
  moved : Nat
  skipped : Nat
  missing : Nat
  events : List REvent
deriving DecidableEq

/-- Insert one path under its basename key, appending to an existing
bucket (the `index.get(b).push(p)` idiom). -/
def indexInsert : List (String × List String) → String → String →
    List (String × List String)
  | [], b, p => [(b, [p])]
  | (k, v) :: rest, b, p =>
    if k = b then (k, v ++ [p]) :: rest
    else (k, v) :: indexInsert rest b p

/-- The basename index of the walked tree: lower-cased basename to the
list of full paths carrying it, in walk order. -/
def buildIndex (paths : List String) : List (String × List String) :=
  paths.foldl (fun idx p => indexInsert idx (strLower (basename p)) p) []

/-- One iteration of the rescue loop for a wanted target path `to`:
if the target exists, `skipped`; else exactly one basename candidate is
renamed onto the target (`moved`, or a warning if the rename throws),
zero candidates is `missing`, and two or more candidates are reported as
ambiguous — incrementing no counter. The index is the one built before
the loop. -/
def rescueStep (index : List (String × List String)) (st : RescueState)
    (toPath : String) : RescueState :=
  if pexists st.fs toPath then { st with skipped := st.skipped + 1 }
  else
    let base := strLower (basename toPath)
    let cands := (assocLookup index base).getD []
    match cands with
    | [fromPath] =>
      let dirs' := mkdirRec st.fs.dirs (dirname toPath)
      match renameFile { st.fs with dirs := dirs' } fromPath toPath with
      | some fs2 =>
        { st with
          fs := fs2
          moved := st.moved + 1
          events := st.events ++ [.mv fromPath toPath] }
      | none =>
        { st with
          fs := { st.fs with dirs := dirs' }
          events := st.events ++ [.warnFailed fromPath toPath] }
    | [] =>
      { st with
        missing := st.missing + 1
        events := st.events ++ [.missingEv toPath] }
    | _ =>
      { st with events := st.events ++ [.ambiguousEv base cands] }

/-- The registry document the rescue tool reads: only `agents` with their
`source_file` matter (`doc.agents || []` then `.map(a => a.source_file)`).
-/
structure RescueDoc where
  agents : List RawAgent
deriving DecidableEq

/-- The full rescue pass over a parsed document and a live tree: walk
(`.md` files of the tree, in tree order), index by lower-cased basename,
then fold the loop over the wanted target paths (`filter(Boolean)` drops
empty ones). -/
def rescueRun (doc : RescueDoc) (fs : FsState) : RescueState :=
  let want := (doc.agents.map RawAgent.source_file).filter (fun s => s ≠ "")
  let all := (fs.files.map Prod.fst).filter (fun p => strEndsWith p ".md")
  let index := buildIndex all
  want.foldl (rescueStep index) ⟨fs, 0, 0, 0, []⟩

/-- The rescue world: registry files as parsed documents keyed by path
(the read-plus-parse of `yaml.parse(fs.readFileSync(registry))`), and the
file tree. -/
structure RescueWorld where
  regs : List (String × RescueDoc)
  fs : FsState

/-- The whole rescue tool: default the registry path, read it (a missing
file throws, aborting the run), then do the full pass. -/
def rescueMain (argv2 : Option String) (world : RescueWorld) :
    Except String RescueState :=
  let reg := rescueRegistryPath argv2
  match assocLookup world.regs reg with
  | none => .error ("ENOENT: " ++ reg)
  | some doc => .ok (rescueRun doc world.fs)

/-! ## Helper lemmas on association lists and the executor -/

theorem assocLookup_eraseKey_self {β : Type} (l : List (String × β))
    (k : String) : assocLookup (eraseKey l k) k = none := by
  induction l with
  | nil => rfl
  | cons hd tl ih =>
    obtain ⟨a, b⟩ := hd
    by_cases h : a = k <;> simp [eraseKey, assocLookup, h, ih]

theorem assocLookup_append_of_none {β : Type} (l1 l2 : List (String × β))
    (k : String) (h : assocLookup l1 k = none) :
    assocLookup (l1 ++ l2) k = assocLookup l2 k := by
  induction l1 with
  | nil => rfl
  | cons hd tl ih =>
    obtain ⟨a, b⟩ := hd
    by_cases hak : a = k
    · simp [assocLookup, hak] at h
    · simp [assocLookup, hak] at h ⊢
      exact ih h

theorem assocLookup_setKey_self {β : Type} (l : List (String × β))
    (k : String) (v : β) : assocLookup (setKey l k v) k = some v := by
  unfold setKey
  rw [assocLookup_append_of_none _ _ _ (assocLookup_eraseKey_self l k)]
  simp [assocLookup]

theorem mem_ancestorChains_self (n : Nat) (d : String) :
    d ∈ ancestorChains n d := by
  cases n <;> simp [ancestorChains]

theorem mem_mkdirRec_self (dirs : List String) (d : String) :
    d ∈ mkdirRec dirs d := by
  unfold mkdirRec
  exact List.mem_append_left _ (mem_ancestorChains_self _ _)

theorem execMove_source_exists (st : FsState) (m : Move) (c : String)
    (h : assocLookup st.files m.fromPath = some c) :
    (execMove st m).2 = MoveOutcome.moved m.fromPath m.toPath ∧
    assocLookup (execMove st m).1.files m.toPath = some c := by
  have hp : pexists { st with dirs := mkdirRec st.dirs (dirname m.toPath) }
      m.fromPath = true := by
    simp [pexists, h]
  simp [execMove, hp, renameFile, h, assocLookup_setKey_self]

theorem execMove_source_missing (st : FsState) (m : Move)
    (h1 : pexists { st with dirs := mkdirRec st.dirs (dirname m.toPath) }
      m.fromPath = false)
    (h2 : pexists { st with dirs := mkdirRec st.dirs (dirname m.toPath) }
      (basename m.fromPath) = false) :
    (execMove st m).2 = MoveOutcome.notFound m.fromPath ∧
    (execMove st m).1.files = st.files ∧
    dirname m.toPath ∈ (execMove st m).1.dirs := by
  simp [execMove, h1, h2, mem_mkdirRec_self]

/-- Claim C1, counterexample. The claim says a move whose destination already
exists is counted as skipped and the destination is never overwritten. On
the tree holding `a.md` (content `X`) and `01-core-development/a.md`
(content `Y`), the `APPLY_MOVES` loop processes the move
`a.md → 01-core-development/a.md` although the destination exists: it
reports a rename (not a skip) and the destination ends up holding `X`. -/
theorem C1_counterexample :
    pexists ⟨[("a.md", "X"), ("01-core-development/a.md", "Y")], []⟩
      "01-core-development/a.md" = true ∧
    (execMove ⟨[("a.md", "X"), ("01-core-development/a.md", "Y")], []⟩
      ⟨"a.md", "01-core-development/a.md", "n"⟩).2 =
      MoveOutcome.moved "a.md" "01-core-development/a.md" ∧
    assocLookup (execMove
      ⟨[("a.md", "X"), ("01-core-development/a.md", "Y")], []⟩
      ⟨"a.md", "01-core-development/a.md", "n"⟩).1.files
      "01-core-development/a.md" = some "X" := by
  decide

/-- Claim C1, amended. The `APPLY_MOVES` loop never checks whether the
destination exists: whenever the source file exists the move is performed
and the destination is rebound to the source's content (overwriting
whatever was there); a move is skipped (`notFound`) only when neither the
source path nor its bare basename exists, and then the file map is left
untouched. -/
theorem C1_amended_executor_behavior (st : FsState) (m : Move) :
    (∀ c, assocLookup st.files m.fromPath = some c →
      (execMove st m).2 = MoveOutcome.moved m.fromPath m.toPath ∧
      assocLookup (execMove st m).1.files m.toPath = some c) ∧
    (pexists { st with dirs := mkdirRec st.dirs (dirname m.toPath) }
        m.fromPath = false →
      pexists { st with dirs := mkdirRec st.dirs (dirname m.toPath) }
        (basename m.fromPath) = false →
      (execMove st m).2 = MoveOutcome.notFound m.fromPath ∧
      (execMove st m).1.files = st.files) := by
  constructor
  · intro c h
    exact execMove_source_exists st m c h
  · intro h1 h2
    exact ⟨(execMove_source_missing st m h1 h2).1,
      (execMove_source_missing st m h1 h2).2.1⟩

/-- Claim C1, witness for the amended theorem: on a tree holding only the
source file, the move is performed and the destination receives its
content. -/
theorem C1_amended_executor_behavior_witness :
    (execMove ⟨[("b.md", "Z")], []⟩
      ⟨"b.md", "01-core-development/b.md", "n"⟩).2 =
      MoveOutcome.moved "b.md" "01-core-development/b.md" ∧
    assocLookup (execMove ⟨[("b.md", "Z")], []⟩
      ⟨"b.md", "01-core-development/b.md", "n"⟩).1.files
      "01-core-development/b.md" = some "Z" :=
  (C1_amended_executor_behavior ⟨[("b.md", "Z")], []⟩
    ⟨"b.md", "01-core-development/b.md", "n"⟩).1 "Z" (by decide)

/-- Claim C8. The `APPLY_MOVES` loop calls `fs.mkdirSync(dirname(to),
{recursive: true})` before any source-existence check, so the destination
directory is created even for a move that ends up unresolved (neither the
source path nor its bare basename exists): the directory set gains
`dirname m.toPath` while the file map is unchanged and the move is
reported as not found. -/
theorem C8_mkdir_even_when_unresolved (st : FsState) (m : Move)
    (h1 : pexists { st with dirs := mkdirRec st.dirs (dirname m.toPath) }
      m.fromPath = false)
    (h2 : pexists { st with dirs := mkdirRec st.dirs (dirname m.toPath) }
      (basename m.fromPath) = false) :
    dirname m.toPath ∈ (execMove st m).1.dirs ∧
    (execMove st m).1.files = st.files ∧
    (execMove st m).2 = MoveOutcome.notFound m.fromPath :=
  ⟨(execMove_source_missing st m h1 h2).2.2,
   (execMove_source_missing st m h1 h2).2.1,
   (execMove_source_missing st m h1 h2).1⟩

/-- Claim C8, witness: a move of a file that exists nowhere still creates
`01-core-development` in the directory set. -/
theorem C8_mkdir_even_when_unresolved_witness :
    dirname "01-core-development/gone.md" ∈
      (execMove ⟨[], []⟩ ⟨"gone.md", "01-core-development/gone.md", "n"⟩).1.dirs ∧
    (execMove ⟨[], []⟩
      ⟨"gone.md", "01-core-development/gone.md", "n"⟩).1.files = [] ∧
    (execMove ⟨[], []⟩ ⟨"gone.md", "01-core-development/gone.md", "n"⟩).2 =
      MoveOutcome.notFound "gone.md" :=
  C8_mkdir_even_when_unresolved ⟨[], []⟩
    ⟨"gone.md", "01-core-development/gone.md", "n"⟩ (by decide) (by decide)

/-- Claim C2, counterexample. The claim says that with two or more basename
candidates the *ambiguous count* increments. The rescue tool has no
ambiguous counter at all: on a tree with `x/reviewer.md` and
`y/reviewer.md` and a registry wanting `01/reviewer.md`, both candidates
are reported and no rename happens, but every counter the tool maintains
(`moved`, `skipped`, `missing` — printed as `unresolved_missing`) stays 0.
-/
theorem C2_counterexample :
    (rescueRun ⟨[⟨"r", "", "01/reviewer.md", ""⟩]⟩
      ⟨[("x/reviewer.md", "1"), ("y/reviewer.md", "2")], []⟩).moved = 0 ∧
    (rescueRun ⟨[⟨"r", "", "01/reviewer.md", ""⟩]⟩
      ⟨[("x/reviewer.md", "1"), ("y/reviewer.md", "2")], []⟩).skipped = 0 ∧
    (rescueRun ⟨[⟨"r", "", "01/reviewer.md", ""⟩]⟩
      ⟨[("x/reviewer.md", "1"), ("y/reviewer.md", "2")], []⟩).missing = 0 ∧
    (rescueRun ⟨[⟨"r", "", "01/reviewer.md", ""⟩]⟩
      ⟨[("x/reviewer.md", "1"), ("y/reviewer.md", "2")], []⟩).fs.files =
      [("x/reviewer.md", "1"), ("y/reviewer.md", "2")] ∧
    (rescueRun ⟨[⟨"r", "", "01/reviewer.md", ""⟩]⟩
      ⟨[("x/reviewer.md", "1"), ("y/reviewer.md", "2")], []⟩).events =
      [REvent.ambiguousEv "reviewer.md" ["x/reviewer.md", "y/reviewer.md"]] := by
  decide

/-- Claim C2, amended. For a record whose target path does not already
exist: with exactly one candidate that is a live file, the candidate is
renamed onto the target and `moved` increments by one; with zero
candidates `missing` increments and the file map is unchanged; with two
or more candidates every candidate path is reported and the file map is
unchanged, but *no* counter changes — the tool maintains only `moved`,
`skipped` and `missing`, and an ambiguous record is excluded from all
three. -/
theorem C2_amended_rescue_cardinality (index : List (String × List String))
    (st : RescueState) (toPath : String)
    (hex : pexists st.fs toPath = false) :
    (∀ f c, (assocLookup index (strLower (basename toPath))).getD [] = [f] →
      assocLookup st.fs.files f = some c →
      (rescueStep index st toPath).moved = st.moved + 1 ∧
      assocLookup (rescueStep index st toPath).fs.files toPath = some c) ∧
    ((assocLookup index (strLower (basename toPath))).getD [] = [] →
      (rescueStep index st toPath).missing = st.missing + 1 ∧
      (rescueStep index st toPath).fs.files = st.fs.files ∧
      (rescueStep index st toPath).moved = st.moved) ∧
    (∀ f1 f2 rest,
      (assocLookup index (strLower (basename toPath))).getD [] =
        f1 :: f2 :: rest →
      (rescueStep index st toPath).fs.files = st.fs.files ∧
      (rescueStep index st toPath).moved = st.moved ∧
      (rescueStep index st toPath).missing = st.missing ∧
      (rescueStep index st toPath).skipped = st.skipped ∧
      (rescueStep index st toPath).events = st.events ++
        [REvent.ambiguousEv (strLower (basename toPath))
          (f1 :: f2 :: rest)]) := by
  refine ⟨?_, ?_, ?_⟩
  · intro f c hc hf
    simp [rescueStep, hex, hc, renameFile, hf, assocLookup_setKey_self]
  · intro hc
    simp [rescueStep, hex, hc]
  · intro f1 f2 rest hc
    simp [rescueStep, hex, hc]

/-- Claim C2, witness for the amended theorem: a single live candidate is
renamed onto the target and `moved` goes from 0 to 1. -/
theorem C2_amended_rescue_cardinality_witness :
    (rescueStep [("reviewer.md", ["x/reviewer.md"])]
      ⟨⟨[("x/reviewer.md", "1")], []⟩, 0, 0, 0, []⟩ "01/reviewer.md").moved =
      0 + 1 ∧
    assocLookup (rescueStep [("reviewer.md", ["x/reviewer.md"])]
      ⟨⟨[("x/reviewer.md", "1")], []⟩, 0, 0, 0, []⟩
      "01/reviewer.md").fs.files "01/reviewer.md" = some "1" :=
  (C2_amended_rescue_cardinality [("reviewer.md", ["x/reviewer.md"])]
    ⟨⟨[("x/reviewer.md", "1")], []⟩, 0, 0, 0, []⟩ "01/reviewer.md"
    (by decide)).1 "x/reviewer.md" "1" (by decide) (by decide)

/-- Claim C7. Without `--fix` the run performs no writes at all: no backup,
no registry write-back, and the file tree is returned unchanged — only
the processed report state is produced. -/
theorem C7_no_fix_means_no_writes (applyMoves : Bool)
    (regPath rawContent : String) (doc : RegDoc) (fs0 : FsState) :
    runLint false applyMoves regPath rawContent doc fs0 =
      (processAgents doc.categories (agentsOf doc), ⟨none, none, fs0⟩) := by
  rfl

/-- Claim C9. Invoked with no command-line argument, the rescue tool does
not bail out: the registry path defaults to `improved-index.yml` and the
run is the full rescue pass over that file's document. -/
theorem C9_rescue_defaults_registry (world : RescueWorld) (doc : RescueDoc)
    (h : assocLookup world.regs "improved-index.yml" = some doc) :
    rescueMain none world = Except.ok (rescueRun doc world.fs) := by
  simp [rescueMain, rescueRegistryPath, h]

/-- Claim C9, witness: with a parseable `improved-index.yml` present, the
argument-less run succeeds. -/
theorem C9_rescue_defaults_registry_witness :
    rescueMain none ⟨[("improved-index.yml", ⟨[]⟩)], ⟨[], []⟩⟩ =
      Except.ok (rescueRun ⟨[]⟩ ⟨[], []⟩) :=
  C9_rescue_defaults_registry ⟨[("improved-index.yml", ⟨[]⟩)], ⟨[], []⟩⟩
    ⟨[]⟩ (by decide)

/-- Claim C10. When the parsed document has no `agents` field or its
`agents` field is not an array, the `Array.isArray` guard yields the
empty record list and the run completes normally with all counts zero. -/
theorem C10_non_array_agents_is_empty_run (doc : RegDoc)
    (h : doc.agents = AgentsField.absent ∨
      doc.agents = AgentsField.notArray) :
    lintSummary doc = ⟨0, 0, 0, 0, 0, 0⟩ := by
  have hag : agentsOf doc = [] := by
    rcases h with h | h <;> simp [agentsOf, h]
  simp [lintSummary, hag, processAgents, initLintState]

/-- Claim C10, witness: a document whose `agents` field is not an array
reports all-zero counts. -/
theorem C10_non_array_agents_is_empty_run_witness :
    lintSummary ⟨[("01-core-development", "01-core-development")],
      AgentsField.notArray⟩ = ⟨0, 0, 0, 0, 0, 0⟩ :=
  C10_non_array_agents_is_empty_run _ (Or.inr rfl)

/-! ## Character-level lemmas for `toKebab` -/

theorem char_toNat_ofNat_valid (n : Nat) (h : n.isValidChar) :
    (Char.ofNat n).toNat = n := by
  simp [Char.ofNat, h, Char.ofNatAux, Char.toNat, UInt32.toNat,
    BitVec.toNat_ofNatLt]

theorem char_eq_of_toNat_eq {a b : Char} (h : a.toNat = b.toNat) : a = b :=
  Char.ext (UInt32.toNat.inj h)

theorem char_eq_iff_toNat {a b : Char} : a = b ↔ a.toNat = b.toNat :=
  ⟨fun h => h ▸ rfl, char_eq_of_toNat_eq⟩

theorem lowerChar_toNat_of_upper {c : Char}
    (h : 65 ≤ c.toNat ∧ c.toNat ≤ 90) :
    (lowerChar c).toNat = c.toNat + 32 := by
  have hv : (c.toNat + 32).isValidChar := Or.inl (by omega)
  simp [lowerChar, h, char_toNat_ofNat_valid _ hv]

theorem lowerChar_eq_self_of_not_upper {c : Char}
    (h : ¬(65 ≤ c.toNat ∧ c.toNat ≤ 90)) : lowerChar c = c := by
  simp [lowerChar, h]

theorem lowerChar_idem (c : Char) : lowerChar (lowerChar c) = lowerChar c := by
  by_cases h : 65 ≤ c.toNat ∧ c.toNat ≤ 90
  · have h1 := lowerChar_toNat_of_upper h
    have h2 : ¬(65 ≤ (lowerChar c).toNat ∧ (lowerChar c).toNat ≤ 90) := by
      omega
    exact lowerChar_eq_self_of_not_upper h2
  · rw [lowerChar_eq_self_of_not_upper h, lowerChar_eq_self_of_not_upper h]

theorem isAllowed_lowerChar {c : Char} (h : isAllowed c = true) :
    isAllowed (lowerChar c) = true := by
  by_cases hu : 65 ≤ c.toNat ∧ c.toNat ≤ 90
  · have ht := lowerChar_toNat_of_upper hu
    simp only [isAllowed, ht]
    simp
    omega
  · rw [lowerChar_eq_self_of_not_upper hu]
    exact h

theorem isJsSpace_lowerChar {c : Char} (h : isJsSpace c = false) :
    isJsSpace (lowerChar c) = false := by
  by_cases hu : 65 ≤ c.toNat ∧ c.toNat ≤ 90
  · have ht := lowerChar_toNat_of_upper hu
    simp only [isJsSpace, ht]
    simp
    omega
  · rw [lowerChar_eq_self_of_not_upper hu]
    exact h

theorem isHyphen_lowerChar (c : Char) : isHyphen (lowerChar c) = isHyphen c := by
  by_cases hu : 65 ≤ c.toNat ∧ c.toNat ≤ 90
  · have ht := lowerChar_toNat_of_upper hu
    have h1 : isHyphen (lowerChar c) = false := by
      simp [isHyphen, char_eq_iff_toNat, ht]
      omega
    have h2 : isHyphen c = false := by
      simp [isHyphen, char_eq_iff_toNat]
      omega
    rw [h1, h2]
  · rw [lowerChar_eq_self_of_not_upper hu]

theorem not_amp_of_isAllowed {c : Char} (h : isAllowed c = true) : c ≠ '&' := by
  intro he
  subst he
  simp [isAllowed] at h

theorem not_upper_of_lowerChar_fixed {c : Char}
    (hl : lowerChar c = c) : ¬(65 ≤ c.toNat ∧ c.toNat ≤ 90) := by
  intro hu
  have := lowerChar_toNat_of_upper hu
  rw [hl] at this
  omega

/-! ## Run-collapsing lemmas -/

/-- No two adjacent characters of the list both satisfy `p`. -/
def noTwoAdj (p : Char → Bool) : List Char → Prop
  | [] => True
  | [_] => True
  | a :: b :: rest => ¬(p a = true ∧ p b = true) ∧ noTwoAdj p (b :: rest)

/-- The head (if any) does not satisfy `p`. -/
def headNot (p : Char → Bool) : List Char → Prop
  | [] => True
  | c :: _ => p c = false

theorem noTwoAdj_tail {p : Char → Bool} {c : Char} {l : List Char}
    (h : noTwoAdj p (c :: l)) : noTwoAdj p l := by
  cases l with
  | nil => trivial
  | cons b rest => exact h.2

theorem noTwoAdj_cons_of_headNot {p : Char → Bool} {a : Char} {l : List Char}
    (hl : noTwoAdj p l) (hh : headNot p l) : noTwoAdj p (a :: l) := by
  cases l with
  | nil => trivial
  | cons b rest =>
    refine ⟨?_, hl⟩
    intro hc
    rw [hh] at hc
    exact Bool.false_ne_true hc.2

theorem noTwoAdj_cons_of_not_fst {p : Char → Bool} {a : Char} {l : List Char}
    (ha : p a = false) (hl : noTwoAdj p l) : noTwoAdj p (a :: l) := by
  cases l with
  | nil => trivial
  | cons b rest =>
    refine ⟨?_, hl⟩
    intro hc
    rw [ha] at hc
    exact Bool.false_ne_true hc.1

theorem headNot_collapseRunsAux_true (p : Char → Bool) (r : Char) :
    ∀ l : List Char, headNot p (collapseRunsAux p r true l)
  | [] => trivial
  | c :: cs => by
    by_cases h : p c = true
    · simp only [collapseRunsAux, h, if_true]
      exact headNot_collapseRunsAux_true p r cs
    · simp only [collapseRunsAux, h]
      simp at h
      simp [headNot, h]

theorem noTwoAdj_collapseRunsAux (p : Char → Bool) (r : Char) :
    ∀ (l : List Char) (b : Bool), noTwoAdj p (collapseRunsAux p r b l)
  | [], _ => trivial
  | c :: cs, b => by
    by_cases h : p c = true
    · cases b with
      | true =>
        simp only [collapseRunsAux, h, if_true]
        exact noTwoAdj_collapseRunsAux p r cs true
      | false =>
        simp only [collapseRunsAux, h, if_true, if_false]
        exact noTwoAdj_cons_of_headNot (noTwoAdj_collapseRunsAux p r cs true)
          (headNot_collapseRunsAux_true p r cs)
    · simp only [collapseRunsAux, h, if_false]
      simp at h
      exact noTwoAdj_cons_of_not_fst h (noTwoAdj_collapseRunsAux p r cs false)

theorem mem_collapseRunsAux {p : Char → Bool} {r : Char} :
    ∀ {l : List Char} {b : Bool} {c : Char},
      c ∈ collapseRunsAux p r b l → c = r ∨ (c ∈ l ∧ p c = false)
  | [], b, c => by simp [collapseRunsAux]
  | a :: cs, b, c => by
    intro hm
    by_cases h : p a = true
    · cases b with
      | true =>
        simp only [collapseRunsAux, h, if_true] at hm
        rcases mem_collapseRunsAux hm with h1 | ⟨h1, h2⟩
        · exact Or.inl h1
        · exact Or.inr ⟨List.mem_cons_of_mem _ h1, h2⟩
      | false =>
        simp only [collapseRunsAux, h, if_true, if_false] at hm
        rcases List.mem_cons.mp hm with h1 | h1
        · exact Or.inl h1
        · rcases mem_collapseRunsAux h1 with h2 | ⟨h2, h3⟩
          · exact Or.inl h2
          · exact Or.inr ⟨List.mem_cons_of_mem _ h2, h3⟩
    · simp only [collapseRunsAux, h, if_false] at hm
      simp at h
      rcases List.mem_cons.mp hm with h1 | h1
      · exact Or.inr ⟨h1 ▸ List.mem_cons_self _ _, h1 ▸ h⟩
      · rcases mem_collapseRunsAux h1 with h2 | ⟨h2, h3⟩
        · exact Or.inl h2
        · exact Or.inr ⟨List.mem_cons_of_mem _ h2, h3⟩

theorem collapseRunsAux_eq_self {p : Char → Bool} {r : Char} :
    ∀ (l : List Char) (b : Bool), noTwoAdj p l →
      (∀ c, p c = true → c = r) → (b = true → headNot p l) →
      collapseRunsAux p r b l = l
  | [], _, _, _, _ => rfl
  | c :: cs, b, hadj, hpr, hhead => by
    by_cases h : p c = true
    · have hb : b = false := by
        cases b with
        | false => rfl
        | true =>
          have := hhead rfl
          rw [this] at h
          exact absurd h (by simp)
      subst hb
      simp only [collapseRunsAux, h, if_true, if_false]
      have hcr : c = r := hpr c h
      have hrest : collapseRunsAux p r true cs = cs := by
        apply collapseRunsAux_eq_self cs true (noTwoAdj_tail hadj) hpr
        intro _
        cases cs with
        | nil => trivial
        | cons d ds =>
          have : ¬(p c = true ∧ p d = true) := hadj.1
          simp only [headNot]
          cases hd : p d with
          | false => rfl
          | true => exact absurd ⟨h, hd⟩ this
      rw [hcr, hrest]
      simp
    · simp only [collapseRunsAux, h]
      simp only [Bool.false_eq_true, if_false]
      rw [collapseRunsAux_eq_self cs false (noTwoAdj_tail hadj) hpr
        (by intro hc; exact absurd hc (by simp))]

theorem dropWhile_eq_self_of_all_false {p : Char → Bool} {l : List Char}
    (h : ∀ c ∈ l, p c = false) : l.dropWhile p = l := by
  cases l with
  | nil => rfl
  | cons c cs =>
    have := h c (List.mem_cons_self _ _)
    simp [List.dropWhile_cons, this]

theorem trimL_eq_self {l : List Char}
    (h : ∀ c ∈ l, isJsSpace c = false) : trimL l = l := by
  unfold trimL
  rw [dropWhile_eq_self_of_all_false h]
  rw [dropWhile_eq_self_of_all_false (by
    intro c hc
    exact h c (List.mem_reverse.mp hc))]
  exact List.reverse_reverse l

theorem ampAnd_eq_self : ∀ {l : List Char}, (∀ c ∈ l, c ≠ '&') → ampAnd l = l
  | [], _ => rfl
  | c :: cs, h => by
    have hc : c ≠ '&' := h c (List.mem_cons_self _ _)
    simp only [ampAnd, hc, if_false]
    rw [ampAnd_eq_self (fun d hd => h d (List.mem_cons_of_mem _ hd))]
    rfl

theorem map_lowerChar_eq_self {l : List Char}
    (h : ∀ c ∈ l, lowerChar c = c) : l.map lowerChar = l := by
  induction l with
  | nil => rfl
  | cons c cs ih =>
    simp only [List.map_cons]
    rw [h c (List.mem_cons_self _ _),
      ih (fun d hd => h d (List.mem_cons_of_mem _ hd))]

theorem noTwoAdj_map_lowerChar : ∀ {l : List Char},
    noTwoAdj isHyphen l → noTwoAdj isHyphen (l.map lowerChar)
  | [], _ => trivial
  | [a], _ => trivial
  | a :: b :: rest, h => by
    simp only [List.map_cons]
    refine ⟨?_, noTwoAdj_map_lowerChar h.2⟩
    rw [isHyphen_lowerChar, isHyphen_lowerChar]
    exact h.1

/-! ## The kebab normal form and idempotence of `toKebab` -/

/-- The invariant of `toKebab`'s output: every character is on the
allow-list, is not whitespace and is already lower-case, and no two
hyphens are adjacent. -/
def KebabNormal (l : List Char) : Prop :=
  (∀ c ∈ l, isAllowed c = true ∧ isJsSpace c = false ∧ lowerChar c = c) ∧
  noTwoAdj isHyphen l

theorem toKebabL_kebabNormal (l : List Char) : KebabNormal (toKebabL l) := by
  unfold toKebabL collapseRuns
  constructor
  · intro c hc
    obtain ⟨d, hd, hdc⟩ := List.mem_map.mp hc
    have hd4 : d = '-' ∨ (isAllowed d = true ∧ isJsSpace d = false) := by
      rcases mem_collapseRunsAux hd with h1 | ⟨h1, _⟩
      · exact Or.inl h1
      · rcases mem_collapseRunsAux h1 with h2 | ⟨h2, h3⟩
        · exact Or.inl h2
        · exact Or.inr ⟨List.of_mem_filter h2, h3⟩
    have hall : isAllowed d = true ∧ isJsSpace d = false := by
      rcases hd4 with h | h
      · subst h
        exact ⟨by decide, by decide⟩
      · exact h
    subst hdc
    exact ⟨isAllowed_lowerChar hall.1, isJsSpace_lowerChar hall.2,
      lowerChar_idem d⟩
  · exact noTwoAdj_map_lowerChar
      (noTwoAdj_collapseRunsAux isHyphen '-' _ false)

theorem collapseRunsAux_eq_self_of_no_p {p : Char → Bool} {r : Char} :
    ∀ (l : List Char) (b : Bool), (∀ c ∈ l, p c = false) →
      collapseRunsAux p r b l = l
  | [], _, _ => rfl
  | c :: cs, b, h => by
    have hc : p c = false := h c (List.mem_cons_self _ _)
    simp only [collapseRunsAux, hc, Bool.false_eq_true, if_false]
    rw [collapseRunsAux_eq_self_of_no_p cs false
      (fun d hd => h d (List.mem_cons_of_mem _ hd))]

theorem toKebabL_eq_self_of_normal {l : List Char} (h : KebabNormal l) :
    toKebabL l = l := by
  obtain ⟨hall, hadj⟩ := h
  have h1 : trimL l = l :=
    trimL_eq_self (fun c hc => (hall c hc).2.1)
  have h2 : ampAnd l = l :=
    ampAnd_eq_self (fun c hc => not_amp_of_isAllowed (hall c hc).1)
  have h3 : l.filter isAllowed = l :=
    List.filter_eq_self.mpr (fun c hc => (hall c hc).1)
  have h4 : collapseRuns isJsSpace '-' l = l :=
    collapseRunsAux_eq_self_of_no_p l false (fun c hc => (hall c hc).2.1)
  have h5 : collapseRuns isHyphen '-' l = l := by
    apply collapseRunsAux_eq_self l false hadj
    · intro c hc
      simpa [isHyphen] using hc
    · intro hb
      exact absurd hb (by simp)
  have h6 : l.map lowerChar = l :=
    map_lowerChar_eq_self (fun c hc => (hall c hc).2.2)
  unfold toKebabL
  rw [h1, h2, h3, h4, h5, h6]

theorem toKebabL_idem (l : List Char) :
    toKebabL (toKebabL l) = toKebabL l :=
  toKebabL_eq_self_of_normal (toKebabL_kebabNormal l)

/-- Claim C6. `toKebab` is deterministic (it is a function) and idempotent:
re-normalizing an already-normalized name is a no-op; and the declared
basename `My File.md` normalizes to `my-file.md`. -/
theorem C6_toKebab_idempotent :
    (∀ s : String, toKebab (toKebab s) = toKebab s) ∧
    toKebab "My File.md" = "my-file.md" := by
  constructor
  · intro s
    show (⟨toKebabL (toKebabL s.data)⟩ : String) = ⟨toKebabL s.data⟩
    rw [toKebabL_idem]
  · rfl

/-! ## Duplicate resolution: the kept list is the first-occurrence dedup -/

/-- Specification-side description of the duplicate resolver: drop records
without a name, keep the first record of each name in input order
(`seen` holds the names already taken). -/
def dedupByNameAux (seen : List String) : List RawAgent → List RawAgent
  | [] => []
  | g :: gs =>
    if g.name = "" then dedupByNameAux seen gs
    else if seen.contains g.name then dedupByNameAux seen gs
    else g :: dedupByNameAux (seen ++ [g.name]) gs

theorem normalizeAgent_name (cats : List (String × String)) (a : RawAgent) :
    (normalizeAgent cats a).agent.name = a.name := rfl

theorem processAgents_fold_spec (cats : List (String × String)) :
    ∀ (gs : List RawAgent) (st : LintState),
      (gs.foldl (processAgent cats) st).kept =
        st.kept ++ (dedupByNameAux st.seenNames gs).map
          (fun g => (normalizeAgent cats g).agent) ∧
      (gs.foldl (processAgent cats) st).seenNames =
        st.seenNames ++ (dedupByNameAux st.seenNames gs).map RawAgent.name
  | [], st => by simp [dedupByNameAux]
  | g :: gs, st => by
    by_cases h1 : g.name = ""
    · have hs : processAgent cats st g =
          { st with problems := st.problems ++ [.errorNoName g] } := by
        unfold processAgent
        rw [if_pos h1]
      simp only [List.foldl_cons, hs, dedupByNameAux, h1, if_true]
      exact processAgents_fold_spec cats gs _
    · by_cases h2 : st.seenNames.contains g.name
      · have hs : processAgent cats st g =
            { st with removed := st.removed ++ [⟨"duplicate-name", g⟩] } := by
          unfold processAgent
          rw [if_neg h1, if_pos h2]
        simp only [List.foldl_cons, hs, dedupByNameAux, h1, h2, if_true,
          if_false]
        exact processAgents_fold_spec cats gs _
      · have hs : processAgent cats st g =
            { st with
              seenNames := st.seenNames ++ [g.name]
              problems := st.problems ++ (normalizeAgent cats g).problems
              moves := st.moves ++ (normalizeAgent cats g).moves
              kept := st.kept ++ [(normalizeAgent cats g).agent] } := by
          unfold processAgent
          rw [if_neg h1, if_neg h2]
        simp only [List.foldl_cons, hs, dedupByNameAux, h1, h2, if_false]
        have ih := processAgents_fold_spec cats gs
          { st with
            seenNames := st.seenNames ++ [g.name]
            problems := st.problems ++ (normalizeAgent cats g).problems
            moves := st.moves ++ (normalizeAgent cats g).moves
            kept := st.kept ++ [(normalizeAgent cats g).agent] }
        simp only [List.map_cons] at ih ⊢
        rw [ih.1, ih.2]
        constructor
        · simp [List.append_assoc]
        · simp [List.append_assoc, normalizeAgent_name]

theorem processAgents_kept (cats : List (String × String))
    (agents : List RawAgent) :
    (processAgents cats agents).kept =
      (dedupByNameAux [] agents).map (fun g => (normalizeAgent cats g).agent) :=
  (processAgents_fold_spec cats agents initLintState).1

theorem dedupByNameAux_names_spec :
    ∀ (seen : List String) (gs : List RawAgent),
      ((dedupByNameAux seen gs).map RawAgent.name).Nodup ∧
      ∀ n ∈ (dedupByNameAux seen gs).map RawAgent.name, ¬seen.contains n
  | _, [] => by simp [dedupByNameAux]
  | seen, g :: gs => by
    by_cases h1 : g.name = ""
    · simp only [dedupByNameAux, h1, if_true]
      exact dedupByNameAux_names_spec seen gs
    · by_cases h2 : seen.contains g.name
      · simp only [dedupByNameAux, h1, h2, if_true, if_false]
        exact dedupByNameAux_names_spec seen gs
      · simp only [dedupByNameAux, h1, h2, if_false, List.map_cons]
        have ih := dedupByNameAux_names_spec (seen ++ [g.name]) gs
        constructor
        · refine List.Nodup.cons ?_ ih.1
          intro hmem
          have := ih.2 g.name hmem
          simp at this
        · intro n hn hcon
          rcases List.mem_cons.mp hn with h | h
          · subst h
            exact h2 hcon
          · have := ih.2 n h
            simp at this
            exact this.1 (by simpa using hcon)

theorem mem_dedupByNameAux :
    ∀ {seen : List String} {gs : List RawAgent} {x : RawAgent},
      x ∈ dedupByNameAux seen gs → x ∈ gs ∧ x.name ≠ ""
  | _, [], _ => by simp [dedupByNameAux]
  | seen, g :: gs, x => by
    intro hx
    by_cases h1 : g.name = ""
    · simp only [dedupByNameAux, h1, if_true] at hx
      have := mem_dedupByNameAux hx
      exact ⟨List.mem_cons_of_mem _ this.1, this.2⟩
    · by_cases h2 : seen.contains g.name
      · simp only [dedupByNameAux, h1, h2, if_true, if_false] at hx
        have := mem_dedupByNameAux hx
        exact ⟨List.mem_cons_of_mem _ this.1, this.2⟩
      · simp only [dedupByNameAux, h1, h2, if_false] at hx
        rcases List.mem_cons.mp hx with h | h
        · exact ⟨h ▸ List.mem_cons_self _ _, h ▸ h1⟩
        · have := mem_dedupByNameAux h
          exact ⟨List.mem_cons_of_mem _ this.1, this.2⟩

/-- Claim C3. The accepted output keeps exactly one record per identity key:
it is precisely the first-occurrence-in-input-order deduplication of the
(named) input records, each transformed by normalization — so the
relative order of survivors is their input order — and the surviving
names are pairwise distinct. -/
theorem C3_first_occurrence_dedup (cats : List (String × String))
    (agents : List RawAgent) :
    (processAgents cats agents).kept =
      (dedupByNameAux [] agents).map
        (fun g => (normalizeAgent cats g).agent) ∧
    ((processAgents cats agents).kept.map RawAgent.name).Nodup := by
  refine ⟨processAgents_kept cats agents, ?_⟩
  rw [processAgents_kept cats agents, List.map_map]
  have hcomp : (RawAgent.name ∘ fun g => (normalizeAgent cats g).agent) =
      RawAgent.name := by
    funext g
    exact normalizeAgent_name cats g
  rw [hcomp]
  exact (dedupByNameAux_names_spec [] agents).1

/-! ## The category-prefix invariant (C4) -/

theorem isPrefixOf_append_self (l m : List Char) :
    l.isPrefixOf (l ++ m) = true :=
  List.isPrefixOf_iff_prefix.mpr (List.prefix_append l m)

theorem strStartsWith_prefix_append (p t : String) :
    strStartsWith (p ++ t) p = true := by
  unfold strStartsWith
  rw [String.data_append]
  exact isPrefixOf_append_self p.data t.data

theorem canonPath_prefixes (cats : List (String × String))
    (cat norm1 normBase : String) :
    (cat = rootCategoryKey →
      strStartsWith (canonPath cats cat norm1 normBase)
        (ROOT_DIR_DEFAULT ++ "/") = true) ∧
    (cat ≠ rootCategoryKey →
      strStartsWith (canonPath cats cat norm1 normBase)
        (getCatDir cats cat ++ "/") = true) := by
  constructor
  · intro h
    simp only [canonPath, h, if_true]
    by_cases hs : strStartsWith norm1 (ROOT_DIR_DEFAULT ++ "/") = true
    · simp [hs]
    · rw [if_neg (by simpa using hs)]
      exact strStartsWith_prefix_append (ROOT_DIR_DEFAULT ++ "/") normBase
  · intro h
    simp only [canonPath, h, if_false]
    unfold ensurePrefixedByCategory
    by_cases hs : strStartsWith norm1 (getCatDir cats cat ++ "/") = true
    · simp [hs]
    · rw [if_neg (by simpa using hs), String.append_assoc]
      rw [← String.append_assoc]
      exact strStartsWith_prefix_append (getCatDir cats cat ++ "/")
        (basename norm1)

theorem normalizeAgent_source_file (cats : List (String × String))
    (a : RawAgent) :
    (normalizeAgent cats a).agent.source_file =
      canonPath cats (resolveCategory cats a).1
        (replaceFirst (resolveSource a).1 (basename (resolveSource a).1)
          (toKebab (basename (resolveSource a).1)))
        (toKebab (basename (resolveSource a).1)) := rfl

theorem normalizeAgent_category (cats : List (String × String))
    (a : RawAgent) :
    (normalizeAgent cats a).agent.category = (resolveCategory cats a).1 := rfl

/-- Claim C4. Every accepted record's canonical `source_file` starts with
its resolved category's directory followed by a slash — and with the
fixed root directory `superclaude-root/` when the resolved category is
the designated root category. -/
theorem C4_category_prefix_invariant (cats : List (String × String))
    (agents : List RawAgent) (a : RawAgent)
    (ha : a ∈ (processAgents cats agents).kept) :
    (a.category = rootCategoryKey →
      strStartsWith a.source_file (ROOT_DIR_DEFAULT ++ "/") = true) ∧
    (a.category ≠ rootCategoryKey →
      strStartsWith a.source_file (getCatDir cats a.category ++ "/") = true) := by
  rw [processAgents_kept cats agents] at ha
  obtain ⟨g, _, hg⟩ := List.mem_map.mp ha
  subst hg
  rw [normalizeAgent_category, normalizeAgent_source_file]
  exact canonPath_prefixes cats (resolveCategory cats g).1 _ _

/-- Claim C4, witness: the record `x.md` in the defaulted category lands
under `01-core-development/`. -/
theorem C4_category_prefix_invariant_witness :
    strStartsWith
      (⟨"a", "01-core-development", "01-core-development/x.md", ""⟩ :
        RawAgent).source_file (getCatDir [] "01-core-development" ++ "/") =
      true :=
  (C4_category_prefix_invariant [] [⟨"a", "", "x.md", ""⟩]
    ⟨"a", "01-core-development", "01-core-development/x.md", ""⟩
    (by decide)).2 (by decide)

/-! ## Basename and slash lemmas (C5) -/

theorem mem_of_mem_dropWhile {p : Char → Bool} :
    ∀ {l : List Char} {c : Char}, c ∈ l.dropWhile p → c ∈ l
  | [], _ => by simp
  | a :: t, c => by
    intro h
    by_cases ha : p a = true
    · rw [List.dropWhile_cons, if_pos ha] at h
      exact List.mem_cons_of_mem _ (mem_of_mem_dropWhile h)
    · rw [List.dropWhile_cons, if_neg ha] at h
      exact h

theorem mem_of_mem_trimL {l : List Char} {c : Char} (h : c ∈ trimL l) :
    c ∈ l := by
  unfold trimL at h
  rw [List.mem_reverse] at h
  have h2 := mem_of_mem_dropWhile h
  rw [List.mem_reverse] at h2
  exact mem_of_mem_dropWhile h2

theorem mem_ampAnd :
    ∀ {l : List Char} {c : Char}, c ∈ ampAnd l →
      (c = 'a' ∨ c = 'n' ∨ c = 'd') ∨ c ∈ l
  | [], _ => by simp [ampAnd]
  | a :: t, c => by
    intro h
    unfold ampAnd at h
    rcases List.mem_append.mp h with h1 | h1
    · by_cases ha : a = '&'
      · rw [if_pos ha] at h1
        simp only [List.mem_cons, List.not_mem_nil, or_false] at h1
        exact Or.inl h1
      · rw [if_neg ha] at h1
        simp only [List.mem_cons, List.not_mem_nil, or_false] at h1
        subst h1
        exact Or.inr (List.mem_cons_self _ _)
    · rcases mem_ampAnd h1 with h2 | h2
      · exact Or.inl h2
      · exact Or.inr (List.mem_cons_of_mem _ h2)

theorem lowerChar_ne_slash {c : Char} (h : c ≠ '/') : lowerChar c ≠ '/' := by
  by_cases hu : 65 ≤ c.toNat ∧ c.toNat ≤ 90
  · have ht := lowerChar_toNat_of_upper hu
    intro he
    have h47 : (lowerChar c).toNat = 47 := by
      rw [he]
      decide
    omega
  · rw [lowerChar_eq_self_of_not_upper hu]
    exact h

theorem toKebabL_no_slash {l : List Char} (h : ∀ c ∈ l, c ≠ '/') :
    ∀ c ∈ toKebabL l, c ≠ '/' := by
  intro c hc
  unfold toKebabL collapseRuns at hc
  obtain ⟨d, hd, hdc⟩ := List.mem_map.mp hc
  subst hdc
  apply lowerChar_ne_slash
  rcases mem_collapseRunsAux hd with h1 | ⟨h1, _⟩
  · subst h1
    decide
  rcases mem_collapseRunsAux h1 with h2 | ⟨h2, _⟩
  · subst h2
    decide
  have h3 := List.mem_of_mem_filter h2
  rcases mem_ampAnd h3 with h4 | h4
  · rcases h4 with h4 | h4 | h4 <;> subst h4 <;> decide
  · exact h d (mem_of_mem_trimL h4)

theorem dropWhile_slash_eq_self {l : List Char}
    (h : ∀ c ∈ l, c ≠ '/') :
    l.dropWhile (fun c => c = '/') = l := by
  apply dropWhile_eq_self_of_all_false
  intro c hc
  simp [h c hc]

theorem takeWhile_ne_slash_eq_self {l : List Char}
    (h : ∀ c ∈ l, c ≠ '/') :
    l.takeWhile (fun c => c ≠ '/') = l := by
  induction l with
  | nil => rfl
  | cons a t ih =>
    rw [List.takeWhile_cons]
    rw [if_pos (by simp [h a (List.mem_cons_self _ _)])]
    rw [ih (fun c hc => h c (List.mem_cons_of_mem _ hc))]

theorem basenameL_of_no_slash {l : List Char} (h : ∀ c ∈ l, c ≠ '/') :
    basenameL l = l := by
  unfold basenameL dropTrailingSlashes
  rw [dropWhile_slash_eq_self (fun c hc => h c (List.mem_reverse.mp hc))]
  rw [List.reverse_reverse]
  rw [takeWhile_ne_slash_eq_self (fun c hc => h c (List.mem_reverse.mp hc))]
  exact List.reverse_reverse l

theorem basename_of_no_slash {s : String} (h : ∀ c ∈ s.data, c ≠ '/') :
    basename s = s := by
  unfold basename
  rw [basenameL_of_no_slash h]

theorem replaceFirstL_self (l rep : List Char) :
    replaceFirstL l rep l = rep := by
  cases l with
  | nil => rfl
  | cons c cs =>
    unfold replaceFirstL
    have hp : (c :: cs).isPrefixOf (c :: cs) = true := by
      have := isPrefixOf_append_self (c :: cs) []
      rwa [List.append_nil] at this
    rw [if_pos hp, List.drop_length, List.append_nil]

theorem replaceFirst_self (s rep : String) :
    replaceFirst s s rep = rep := by
  unfold replaceFirst
  rw [replaceFirstL_self]

theorem takeWhile_append_all_stop {p : Char → Bool} {y : Char} :
    ∀ {xs : List Char} (ys : List Char), (∀ x ∈ xs, p x = true) →
      p y = false → (xs ++ y :: ys).takeWhile p = xs
  | [], ys, _, hy => by
    simp [List.takeWhile_cons, hy]
  | x :: xs, ys, hall, hy => by
    rw [List.cons_append, List.takeWhile_cons,
      if_pos (hall x (List.mem_cons_self _ _)),
      takeWhile_append_all_stop ys
        (fun d hd => hall d (List.mem_cons_of_mem _ hd)) hy]

theorem basenameL_append_slash {b : List Char} (d : List Char)
    (hb : b ≠ []) (hs : ∀ c ∈ b, c ≠ '/') :
    basenameL (d ++ '/' :: b) = b := by
  have hrev : (d ++ '/' :: b).reverse = b.reverse ++ '/' :: d.reverse := by
    rw [List.reverse_append, List.reverse_cons, List.append_assoc,
      List.singleton_append]
  have hbrev : b.reverse ≠ [] := by
    simpa using hb
  obtain ⟨c, rest, hcr⟩ := List.exists_cons_of_ne_nil hbrev
  have hcb : c ∈ b := by
    rw [← List.mem_reverse, hcr]
    exact List.mem_cons_self _ _
  have hcs : c ≠ '/' := hs c hcb
  have hrev2 : (d ++ '/' :: b).reverse = c :: (rest ++ '/' :: d.reverse) := by
    rw [hrev, hcr, List.cons_append]
  have hdrop : List.dropWhile (fun x => x = '/') (d ++ '/' :: b).reverse =
      (d ++ '/' :: b).reverse := by
    rw [hrev2, List.dropWhile_cons, if_neg (by simp [hcs])]
  unfold basenameL dropTrailingSlashes
  rw [hdrop, List.reverse_reverse, hrev]
  rw [takeWhile_append_all_stop d.reverse
    (fun x hx => by simp [hs x (List.mem_reverse.mp hx)]) (by simp)]
  exact List.reverse_reverse b

theorem str_ne_empty_iff_data {s : String} : s ≠ "" ↔ s.data ≠ [] := by
  constructor
  · intro h hl
    apply h
    cases s with
    | mk l =>
      cases hl
      rfl
  · intro h he
    apply h
    rw [he]

theorem basename_dirSlash_append (d nb : String)
    (hs : ∀ c ∈ nb.data, c ≠ '/') (hne : nb ≠ "") :
    basename ((d ++ "/") ++ nb) = nb := by
  unfold basename
  have hdata : ((d ++ "/") ++ nb).data = d.data ++ '/' :: nb.data := by
    rw [String.data_append, String.data_append]
    show (d.data ++ ['/']) ++ nb.data = _
    rw [List.append_assoc, List.singleton_append]
  rw [hdata, basenameL_append_slash d.data (str_ne_empty_iff_data.mp hne) hs]

theorem strStartsWith_eq_false_of_no_slash {s p : String}
    (h : ∀ c ∈ s.data, c ≠ '/') (hp : '/' ∈ p.data) :
    strStartsWith s p = false := by
  cases hb : strStartsWith s p with
  | false => rfl
  | true =>
    exfalso
    have hpre : p.data <+: s.data := List.isPrefixOf_iff_prefix.mp hb
    exact h '/' (hpre.subset hp) rfl

theorem canonPath_basename (cats : List (String × String))
    (cat nb : String) (hs : ∀ c ∈ nb.data, c ≠ '/') (hne : nb ≠ "") :
    basename (canonPath cats cat nb nb) = nb := by
  unfold canonPath
  by_cases hc : cat = rootCategoryKey
  · rw [if_pos hc]
    rw [if_neg (by
      rw [strStartsWith_eq_false_of_no_slash hs (by decide)]
      simp)]
    exact basename_dirSlash_append ROOT_DIR_DEFAULT nb hs hne
  · rw [if_neg hc]
    unfold ensurePrefixedByCategory
    rw [if_neg (by
      rw [strStartsWith_eq_false_of_no_slash hs (by
        rw [String.data_append]
        exact List.mem_append_right _ (by decide))]
      simp)]
    rw [basename_of_no_slash hs, String.append_assoc]
    rw [← String.append_assoc]
    exact basename_dirSlash_append (getCatDir cats cat) nb hs hne

theorem resolveSource_of_nonempty {a : RawAgent}
    (h : jsTrim a.source_file ≠ "") :
    (resolveSource a).1 = jsTrim a.source_file := by
  unfold resolveSource
  rw [if_neg h]

theorem toKebab_caseFolded_spaceFree (s : String) :
    ∀ c ∈ (toKebab s).data, ¬(65 ≤ c.toNat ∧ c.toNat ≤ 90) ∧
      isJsSpace c = false := by
  intro c hc
  have hn := (toKebabL_kebabNormal s.data).1 c hc
  exact ⟨not_upper_of_lowerChar_fixed hn.2.2, hn.2.1⟩

/-- Claim C5, counterexample. The claim says accepted canonical paths are
pairwise distinct and every canonical basename is case-folded and
space-free. Both fail: the records named `a` and `b` (same declared path
`x.md`) both canonicalize to `01-core-development/x.md`, and the record
named `c` with declared path `A/A` canonicalizes to
`01-core-development/A` — an upper-case basename, because `replace`
rewrites only the *first* occurrence of the basename in the path. -/
theorem C5_counterexample :
    ¬ (((processAgents []
        [⟨"a", "", "x.md", ""⟩, ⟨"b", "", "x.md", ""⟩,
          ⟨"c", "", "A/A", ""⟩]).kept.map RawAgent.source_file).Nodup) ∧
    ¬ (∀ x ∈ (processAgents []
        [⟨"a", "", "x.md", ""⟩, ⟨"b", "", "x.md", ""⟩,
          ⟨"c", "", "A/A", ""⟩]).kept,
        ∀ c ∈ (basename x.source_file).data,
          ¬(65 ≤ c.toNat ∧ c.toNat ≤ 90) ∧ isJsSpace c = false) := by
  constructor
  · decide
  · decide

/-- Claim C5, amended. What the loop actually guarantees: accepted records
have pairwise-distinct *names* (canonical paths may coincide); every
accepted record is the normalization of some named input record; and for
an input record whose trimmed declared path is nonempty, slash-free and
kebab-nonempty, the canonical basename is exactly the kebab form of the
declared path — case-folded and space-free. -/
theorem C5_amended_path_uniqueness (cats : List (String × String))
    (agents : List RawAgent) :
    ((processAgents cats agents).kept.map RawAgent.name).Nodup ∧
    (∀ x ∈ (processAgents cats agents).kept,
      ∃ g ∈ agents, g.name ≠ "" ∧ x = (normalizeAgent cats g).agent) ∧
    (∀ g : RawAgent, jsTrim g.source_file ≠ "" →
      (∀ c ∈ (jsTrim g.source_file).data, c ≠ '/') →
      toKebab (jsTrim g.source_file) ≠ "" →
      basename (normalizeAgent cats g).agent.source_file =
        toKebab (jsTrim g.source_file) ∧
      (∀ c ∈ (toKebab (jsTrim g.source_file)).data,
        ¬(65 ≤ c.toNat ∧ c.toNat ≤ 90) ∧ isJsSpace c = false)) := by
  refine ⟨?_, ?_, ?_⟩
  · rw [processAgents_kept cats agents, List.map_map]
    have hcomp : (RawAgent.name ∘ fun g => (normalizeAgent cats g).agent) =
        RawAgent.name := by
      funext g
      exact normalizeAgent_name cats g
    rw [hcomp]
    exact (dedupByNameAux_names_spec [] agents).1
  · intro x hx
    rw [processAgents_kept cats agents] at hx
    obtain ⟨g, hg, hgx⟩ := List.mem_map.mp hx
    exact ⟨g, (mem_dedupByNameAux hg).1, (mem_dedupByNameAux hg).2, hgx.symm⟩
  · intro g hne hns hk
    have hsrc : (resolveSource g).1 = jsTrim g.source_file :=
      resolveSource_of_nonempty hne
    have hbase : basename (resolveSource g).1 = (resolveSource g).1 := by
      rw [hsrc]
      exact basename_of_no_slash hns
    have hnb : ∀ c ∈ (toKebab (jsTrim g.source_file)).data, c ≠ '/' :=
      toKebabL_no_slash hns
    constructor
    · rw [normalizeAgent_source_file, hbase, hsrc, replaceFirst_self]
      exact canonPath_basename cats (resolveCategory cats g).1
        (toKebab (jsTrim g.source_file)) hnb hk
    · exact toKebab_caseFolded_spaceFree (jsTrim g.source_file)

/-- Claim C5, witness for the amended theorem: the declared path
`My File.md` (slash-free) yields canonical basename `my-file.md`. -/
theorem C5_amended_path_uniqueness_witness :
    basename (normalizeAgent [] ⟨"n", "", "My File.md", ""⟩).agent.source_file =
      toKebab (jsTrim "My File.md") ∧
    (∀ c ∈ (toKebab (jsTrim "My File.md")).data,
      ¬(65 ≤ c.toNat ∧ c.toNat ≤ 90) ∧ isJsSpace c = false) :=
  (C5_amended_path_uniqueness [] []).2.2 ⟨"n", "", "My File.md", ""⟩
    (by decide) (by decide) (by decide)
